import Mathlib

/-!
Shallow embedding of the `soa::vector` structure-of-arrays container
(`src/soa_vector.hpp`) and proofs about its specified behaviour.

Modelling conventions:
* C++ `int` values (sizes, capacities, indices) are modelled as `Int`;
  the claims under study do not exercise 32-bit overflow, so no `% 2^32`
  reduction is applied.
* A record type with homogeneous field values of type `α` stands in for the
  aggregate `T`: a record is a `List α` whose entries are the field values in
  declaration order.  Each field of the container is a column (`List α`) of
  its live values, mirroring the slots `[0, size)` of that field's segment.
* Fallible operations return `Except`/`Option`.
-/

namespace Soa

/-- A field type of the record, reduced to what the layout engine reads from
it: `sizeof` and `alignof`.  C++ guarantees `alignof` is a power of two, so
the alignment is carried as its base-two logarithm (`align = 2 ^ alignLog`). -/
structure FieldTy where
  size : Nat
  alignLog : Nat
deriving DecidableEq, Repr

/-- The bit trick used by `vector::update_shift`:
`(x + align) & ~align` with `align = alignof(type) - 1 = 2^k - 1`.
For a non-negative value, masking the low `k` bits off clears them:
`y & ~(2^k - 1) = y - y % 2^k`.  So the source expression equals
`(x + 2^k - 1) - (x + 2^k - 1) % 2^k`. -/
def maskRound (x k : Nat) : Nat :=
  (x + (2 ^ k - 1)) - (x + (2 ^ k - 1)) % 2 ^ k

/-- `vector::update_shift` (src/soa_vector.hpp:846-860), which fills the
tuple of byte offsets for fields `1 .. arity` given capacity `nb`.
Walking the remaining field list `fs` with the running `shift` and the
previous field `prev`:
* at an intermediate field `f` the source does
  `shift += (nb * sizeof(prev) + align) & ~align` with
  `align = alignof(f) - 1`, and records `shift`;
* at the position one past the last field (`I == arity`) it records
  `shift + nb * sizeof(prev)` — the total byte count, with no rounding. -/
def update_shift (nb : Nat) : Nat → FieldTy → List FieldTy → List Nat
  | shift, prev, [] => [shift + nb * prev.size]
  | shift, prev, f :: fs =>
    (shift + maskRound (nb * prev.size) f.alignLog) ::
      update_shift nb (shift + maskRound (nb * prev.size) f.alignLog) f fs

/-- The full shift tuple computed in `vector::allocate`
(src/soa_vector.hpp:868-878): entry 0 is the offset of field 0, which is 0
(the tuple is value-initialized and `update_shift` starts at index 1);
entries `1 .. arity-1` are the remaining field offsets and the last entry is
the total byte count of the allocation. -/
def layoutShifts (nb : Nat) : List FieldTy → List Nat
  | [] => [0]
  | f :: fs => 0 :: update_shift nb 0 f fs

/-- `nb_bytes` as computed by `vector::allocate`: the last entry of the shift
tuple. -/
def allocBytes (fds : List FieldTy) (nb : Nat) : Nat :=
  (layoutShifts nb fds).getLastD 0

/-- Arithmetic round-up: the least multiple of `a` that is `≥ x`
(for `a > 0`), written the way the spec describes rounding. -/
def roundUpMult (x a : Nat) : Nat :=
  a * ((x + a - 1) / a)

/-- The layout described by the words of the spec/claim C1, for comparison
with `update_shift`: field `i` is placed at the offset of field `i-1` plus
`N * size(field i-1)`, with that sum rounded up to the next multiple of
`align(field i)`; the total is the offset just past the last segment. -/
def specShifts (nb : Nat) : Nat → FieldTy → List FieldTy → List Nat
  | off, prev, [] => [off + nb * prev.size]
  | off, prev, f :: fs =>
    roundUpMult (off + nb * prev.size) (2 ^ f.alignLog) ::
      specShifts nb (roundUpMult (off + nb * prev.size) (2 ^ f.alignLog)) f fs

/-- Spec-worded layout, full tuple (field 0 at offset 0). -/
def specLayoutShifts (nb : Nat) : List FieldTy → List Nat
  | [] => [0]
  | f :: fs => 0 :: specShifts nb 0 f fs

/-- The amended description of the code's layout: field `i` is placed at the
offset of field `i-1` plus `N * size(field i-1)` *rounded up on its own* to
the next multiple of `align(field i)` (the rounding applies to the increment,
not to the accumulated offset); the total is the offset just past the last
segment, with no final rounding. -/
def amendShifts (nb : Nat) : Nat → FieldTy → List FieldTy → List Nat
  | off, prev, [] => [off + nb * prev.size]
  | off, prev, f :: fs =>
    (off + roundUpMult (nb * prev.size) (2 ^ f.alignLog)) ::
      amendShifts nb (off + roundUpMult (nb * prev.size) (2 ^ f.alignLog)) f fs

/-- Amended layout, full tuple. -/
def amendLayoutShifts (nb : Nat) : List FieldTy → List Nat
  | [] => [0]
  | f :: fs => 0 :: amendShifts nb 0 f fs

/-- The payload of the `std::out_of_range` exception built by
`detail::throw_out_of_range<T>(index, size)` (src/soa_vector.hpp:171-180):
the demangled name of the accessed type, the requested index and the current
size, concatenated into the message. -/
structure OutOfRange where
  typeName : String
  index : Int
  size : Int
deriving DecidableEq, Repr

/-- `vector_span::check_at` (src/soa_vector.hpp:215-217) and
`vector::check_at` (src/soa_vector.hpp:775-778), which share the same body:
`if (i >= size()) detail::throw_out_of_range<SelfType>(i, size());`. -/
def check_at (tn : String) (i sz : Int) : Except OutOfRange Unit :=
  if sz ≤ i then Except.error ⟨tn, i, sz⟩ else Except.ok ()

variable {α : Type} [Inhabited α]

/-- `vector_span::at(i)` (src/soa_vector.hpp:201-202): runs `check_at(i)`
then reads `ptr_[i]`.  `col` is the field's column of live values and `sz`
the owning container's size (a span always reads its size from the owner).
The unchecked read is modelled with `getD`; for an index that passes the
check but is outside the live range the C++ read is undefined behaviour. -/
def vector_span_at (tn : String) (col : List α) (sz i : Int) :
    Except OutOfRange α :=
  (check_at tn i sz).map fun _ => col.getD i.toNat default

/-- Construction source of one field of a newly emplaced element:
either a forwarded argument (`new (it) type(arg)`) or value-initialization
(`new (it) type()`). -/
inductive CtorSrc (α : Type) where
  | arg (a : α)
  | valueInit
deriving DecidableEq, Repr

/-- The state of `soa::vector<T>` (src/soa_vector.hpp:412-568):
* `size` — `size_` (an `int`, stored in `members_with_size<T>`);
* `capacity` — `capacity_`;
* `cols` — one column per field, in declaration order, holding the live
  values of slots `[0, size)` of that field's segment;
* `nbBytes` — `nb_bytes_`, the byte length of the current allocation
  (0 when no allocation exists). -/
structure vector (α : Type) where
  size : Int
  capacity : Int
  cols : List (List α)
  nbBytes : Nat
deriving DecidableEq, Repr

/-- The default-constructed vector (src/soa_vector.hpp:590-596): size 0,
capacity 0, `nb_bytes_` 0, no allocation; the `n` field spans exist but are
null.  `n` is the number of fields of the record type. -/
def vector.mkEmpty (n : Nat) : vector α :=
  ⟨0, 0, List.replicate n [], 0⟩

/-- `vector::reserve` (src/soa_vector.hpp:667-676): no-op when the request
does not exceed the current capacity; otherwise allocates a new layout for
`capacity` elements, migrates every live element field-by-field
(`construct_move_array`, order-preserving, so the columns are unchanged in
the model), destroys and frees the old allocation, and adopts the new
capacity and byte count. -/
def vector.reserve (fds : List FieldTy) (v : vector α) (capacity : Int) :
    vector α :=
  if capacity ≤ v.capacity then v
  else { v with capacity := capacity
                nbBytes := allocBytes fds capacity.toNat }

/-- `vector::clear` (src/soa_vector.hpp:661-665): destroys all live elements
field-by-field and sets `size_ = 0`; capacity and allocation are untouched. -/
def vector.clear (v : vector α) : vector α :=
  { v with size := 0, cols := v.cols.map fun _ => [] }

/-- Field-wise element construction of `emplace_back_impl`
(src/soa_vector.hpp:825-844) as it acts on the columns: walking the member
tuple from index `i`, field `i` receives `args[i]` when that argument exists
(first overload) and a value-initialized element otherwise (second
overload); each new value is placed at the end of its column, i.e. at slot
`size()`.  Arguments beyond the member count are ignored (the recursion
stops at `I == sizeof...(Members)`). -/
def emplaceCols (args : List α) : Nat → List (List α) → List (List α)
  | _, [] => []
  | i, c :: cs => (c ++ [args.getD i default]) :: emplaceCols args (i + 1) cs

/-- The trace of construction events of `emplace_back_impl`: for each member
index, in the order the recursion performs them, the field index together
with its construction source.  `m` is the number of members still to
construct and `i` the current member index. -/
def emplaceEvents : Nat → Nat → List α → List (Nat × CtorSrc α)
  | 0, _, _ => []
  | m + 1, i, [] => (i, CtorSrc.valueInit) :: emplaceEvents m (i + 1) []
  | m + 1, i, a :: as => (i, CtorSrc.arg a) :: emplaceEvents m (i + 1) as

/-- The second half of `vector::emplace_back`: the `emplace_back_impl<0>`
call constructing the new element's fields at index `size()`, followed by
`++size_`. -/
def emplacePost (w : vector α) (args : List α) : vector α :=
  { w with size := w.size + 1, cols := emplaceCols args 0 w.cols }

/-- `vector::emplace_back` (src/soa_vector.hpp:737-746): when
`size() == capacity()` it first reserves `size() == 0 ? 1 : capacity() * 2`;
then `emplace_back_impl<0>` constructs the new element's fields at index
`size()`, and finally `++size_`. -/
def vector.emplace_back (fds : List FieldTy) (v : vector α)
    (args : List α) : vector α :=
  emplacePost
    (if v.size = v.capacity
      then vector.reserve fds v (if v.size = 0 then 1 else v.capacity * 2)
      else v)
    args

/-- `vector::push_back` (src/soa_vector.hpp:725-735): decomposes the record
value into its fields with `as_tuple` and forwards all of them, in
declaration order, to `emplace_back` (via `push_back_copy`/`push_back_move`,
src/soa_vector.hpp:814-823). -/
def vector.push_back (fds : List FieldTy) (v : vector α)
    (val : List α) : vector α :=
  vector.emplace_back fds v val

/-- `vector::pop_back` (src/soa_vector.hpp:748-755): first `--size_`, then
for every field destroys `span[size()]` — the slot at the already
decremented size.  Returns the new state together with the slot index passed
to every field destructor. -/
def vector.pop_back (v : vector α) : vector α × Int :=
  (⟨v.size - 1, v.capacity,
     v.cols.map fun c => c.take (v.size - 1).toNat, v.nbBytes⟩,
   v.size - 1)

/-- The construction loop shared by both `vector::resize` overloads
(src/soa_vector.hpp:678-715) as it acts on the columns: each field's column
is extended by `count` new values; field `i` receives copies of `vals[i]`
(the decomposed fill value) in the copying overload, and value-initialized
elements — modelled by `default`, which `List.getD` yields on the empty
`vals` list — in the default-constructing overload. -/
def fillCols (vals : List α) (count : Nat) : Nat → List (List α) → List (List α)
  | _, [] => []
  | i, c :: cs =>
    (c ++ List.replicate count (vals.getD i default)) ::
      fillCols vals count (i + 1) cs

/-- `vector::resize(int)` (src/soa_vector.hpp:678-695): when the request is
`≤ size()` it destroys elements `[n, size)` field-by-field and sets
`size_ = n`; otherwise it reserves `n`, value-initializes elements
`[size, n)` field-by-field, and sets `size_ = n`. -/
def vector.resize (fds : List FieldTy) (v : vector α) (n : Int) : vector α :=
  if n ≤ v.size then
    { v with size := n, cols := v.cols.map fun c => c.take n.toNat }
  else
    let v1 := vector.reserve fds v n
    { v1 with size := n, cols := fillCols [] (n - v.size).toNat 0 v1.cols }

/-- `vector::resize(int, T const&)` (src/soa_vector.hpp:697-715): as
`resize(int)`, but the new elements `[size, n)` are copy-constructed
field-by-field from the decomposed fill value `val`. -/
def vector.resize_fill (fds : List FieldTy) (v : vector α) (n : Int)
    (val : List α) : vector α :=
  if n ≤ v.size then
    { v with size := n, cols := v.cols.map fun c => c.take n.toNat }
  else
    let v1 := vector.reserve fds v n
    { v1 with size := n, cols := fillCols val (n - v.size).toNat 0 v1.cols }

/-- `vector::shrink_to_fit` (src/soa_vector.hpp:717-721): returns at once
when `size() == capacity()`.  Otherwise the source calls
`reallocate(size())` — but no member named `reallocate` is declared or
defined anywhere in the repository, so that call does not compile and the
branch has no semantics; it is modelled as `none`. -/
def vector.shrink_to_fit (v : vector α) : Option (vector α) :=
  if v.size = v.capacity then some v else none

/-- `vector::to_zero` (src/soa_vector.hpp:905-910): resets the spans and
`size_` (`base_with_size() = {}`), `capacity_ = 0` and `nb_bytes_ = 0`,
leaving the canonical empty state without touching any allocation. -/
def vector.to_zero (v : vector α) : vector α :=
  ⟨0, 0, v.cols.map fun _ => [], 0⟩

/-- Move construction (src/soa_vector.hpp:598-606): the destination copies
the source's spans, size, capacity, allocator and byte count, then the
source is `to_zero`-ed.  Returns `(destination, source after the move)`. -/
def vector.move_construct (v : vector α) : vector α × vector α :=
  (⟨v.size, v.capacity, v.cols, v.nbBytes⟩, vector.to_zero v)

/-- Move assignment (src/soa_vector.hpp:625-635): the destination destroys
its live elements and frees its allocation, adopts the source's spans, size,
capacity, allocator and byte count, and the source is `to_zero`-ed.
Returns `(destination, source after the move)`. -/
def vector.move_assign (dst rhs : vector α) : vector α × vector α :=
  (⟨rhs.size, rhs.capacity, rhs.cols, rhs.nbBytes⟩, vector.to_zero rhs)

/-- Materializing a record from the proxy at index `i`: the conversion
operator generated by `SOA_DEFINE_TYPE` (src/soa_vector.hpp:1031-1034)
builds the record `{ field0, field1, ... }` from the per-field references,
i.e. reads slot `i` of every column in declaration order. -/
def vector.read_record (v : vector α) (i : Int) : List α :=
  v.cols.map fun c => c.getD i.toNat default

/-- Assigning a record value through the proxy at index `i`: the generated
`ref_proxy::operator=` (src/soa_vector.hpp:1022-1030) assigns the value's
fields one by one into the per-field references, i.e. writes entry `i` of
every column in declaration order. -/
def vector.write_record (v : vector α) (i : Int) (r : List α) : vector α :=
  { v with cols := List.zipWith (fun c x => c.set i.toNat x) v.cols r }

/-- `vector::at(i)` (src/soa_vector.hpp:467-468): `check_at(i)` then a proxy
over index `i`; the proxy is modelled by the materialized record. -/
def vector.at_checked (tn : String) (v : vector α) (i : Int) :
    Except OutOfRange (List α) :=
  (check_at tn i v.size).map fun _ => vector.read_record v i

/-- Iterated `emplace_back` from the default-constructed vector, always with
the same arguments — the scenario of the growth-doubling property. -/
def vector.emplaceIter (fds : List FieldTy) (args : List α) :
    Nat → vector α
  | 0 => vector.mkEmpty fds.length
  | k + 1 => vector.emplace_back fds (vector.emplaceIter fds args k) args

/-- One mutating container operation, for the operation-sequence claim:
`push_back` (with a record value), `pop_back`, `reserve`, `resize`,
`clear`. -/
inductive Op (α : Type) where
  | push (val : List α)
  | pop
  | reserveOp (n : Int)
  | resizeOp (n : Int)
  | clearOp
deriving DecidableEq, Repr

/-- Interpretation of one operation by the source functions. -/
def stepOp (fds : List FieldTy) (v : vector α) : Op α → vector α
  | Op.push val => vector.push_back fds v val
  | Op.pop => (vector.pop_back v).1
  | Op.reserveOp n => vector.reserve fds v n
  | Op.resizeOp n => vector.resize fds v n
  | Op.clearOp => vector.clear v

/-- Each operation's own precondition: `pop_back` is undefined/unchecked on
an empty container, and `resize` is meaningful for non-negative requests;
the other operations have none. -/
def preOp (v : vector α) : Op α → Bool
  | Op.pop => decide (0 < v.size)
  | Op.resizeOp n => decide (0 ≤ n)
  | _ => true

/-- Whether every operation of the sequence meets its precondition in the
state it is applied to. -/
def okRun (fds : List FieldTy) (v : vector α) : List (Op α) → Bool
  | [] => true
  | op :: ops => preOp v op && okRun fds (stepOp fds v op) ops

/-- Running a sequence of operations. -/
def runOps (fds : List FieldTy) (v : vector α) : List (Op α) → vector α
  | [] => v
  | op :: ops => runOps fds (stepOp fds v op) ops

/-- The number of logical elements implied by one operation, given the count
before it. -/
def impliedSize (s : Int) : Op α → Int
  | Op.push _ => s + 1
  | Op.pop => s - 1
  | Op.reserveOp _ => s
  | Op.resizeOp n => n
  | Op.clearOp => 0

/-- The number of logical elements implied by a sequence of operations. -/
def impliedRun (s : Int) : List (Op α) → Int
  | [] => s
  | op :: ops => impliedRun (impliedSize s op) ops

/-- The container invariant, for a record type with field list `fds`:
`0 ≤ size ≤ capacity`, one column per field, and every field's column holds
exactly the live values of slots `[0, size)`. -/
def Inv (fds : List FieldTy) (v : vector α) : Prop :=
  0 ≤ v.size ∧ v.size ≤ v.capacity ∧ v.cols.length = fds.length ∧
    ∀ c ∈ v.cols, c.length = v.size.toNat

/-- The canonical empty state the spec describes for a moved-from container:
size 0, capacity 0, and no allocation (`nb_bytes_ = 0`, no live values). -/
def canonicalEmpty (v : vector α) : Prop :=
  v.size = 0 ∧ v.capacity = 0 ∧ v.nbBytes = 0 ∧ ∀ c ∈ v.cols, c = []

/-- Whether a checked access failed, i.e. the source threw
`std::out_of_range`. -/
def fails {β : Type} (e : Except OutOfRange β) : Bool :=
  match e with
  | Except.error _ => true
  | Except.ok _ => false

/-- Sample field descriptor used by concrete witnesses: a record with an
`int`-like field (size 4, align 4) and a `bool`-like field (size 1,
align 1). -/
def fds0 : List FieldTy := [⟨4, 2⟩, ⟨1, 0⟩]

/-- Sample operation sequence used by the operation-sequence witness. -/
def ops0 : List (Op Int) :=
  [Op.push [1, 1], Op.push [2, 0], Op.reserveOp 5, Op.pop,
   Op.resizeOp 3, Op.clearOp, Op.push [4, 1]]

/-! ### Helper lemmas -/

theorem maskRound_eq_roundUpMult (x k : Nat) :
    maskRound x k = roundUpMult x (2 ^ k) := by
  have hpos : 0 < 2 ^ k := pow_pos (by norm_num) k
  unfold maskRound roundUpMult
  have h2 : x + 2 ^ k - 1 = x + (2 ^ k - 1) := by omega
  rw [h2]
  have h1 := Nat.div_add_mod (x + (2 ^ k - 1)) (2 ^ k)
  have h3 : (x + (2 ^ k - 1)) % 2 ^ k < 2 ^ k := Nat.mod_lt _ hpos
  omega

theorem roundUpMult_le (x k : Nat) :
    x ≤ roundUpMult x (2 ^ k) ∧ roundUpMult x (2 ^ k) < x + 2 ^ k := by
  have hpos : 0 < 2 ^ k := pow_pos (by norm_num) k
  unfold roundUpMult
  have h1 := Nat.div_add_mod (x + 2 ^ k - 1) (2 ^ k)
  have h3 : (x + 2 ^ k - 1) % 2 ^ k < 2 ^ k := Nat.mod_lt _ hpos
  omega

theorem update_shift_eq_amendShifts (nb : Nat) :
    ∀ (fs : List FieldTy) (shift : Nat) (prev : FieldTy),
      update_shift nb shift prev fs = amendShifts nb shift prev fs := by
  intro fs
  induction fs with
  | nil => intro shift prev; rfl
  | cons f fs ih =>
    intro shift prev
    simp only [update_shift, amendShifts, maskRound_eq_roundUpMult, ih]

theorem list_getD_append_length (c : List α) (x : α) (d : α) :
    (c ++ [x]).getD c.length d = x := by
  induction c with
  | nil => rfl
  | cons a c ih => simpa using ih

theorem list_getD_of_le (l : List α) :
    ∀ (j : Nat) (d : α), l.length ≤ j → l.getD j d = d := by
  induction l with
  | nil => intro j d _; cases j <;> rfl
  | cons a l ih =>
    intro j d h
    cases j with
    | zero => simp at h
    | succ j => simpa using ih j d (by simpa using h)

theorem list_getD_mem (l : List α) :
    ∀ (j : Nat) (d : α), j < l.length → l.getD j d ∈ l := by
  induction l with
  | nil => intro j d h; simp at h
  | cons a l ih =>
    intro j d h
    cases j with
    | zero => simp
    | succ j => simpa using Or.inr (ih j d (by simpa using h))

theorem list_set_getD (d : α) (c : List α) :
    ∀ (k : Nat), k < c.length → c.set k (c.getD k d) = c := by
  induction c with
  | nil => intro k h; simp at h
  | cons a c ih =>
    intro k h
    cases k with
    | zero => simp
    | succ k => simpa using ih k (by simpa using h)

theorem zipWith_set_read (d : α) (k : Nat) :
    ∀ (cols : List (List α)), (∀ c ∈ cols, k < c.length) →
      List.zipWith (fun c x => c.set k x) cols (cols.map fun c => c.getD k d) =
        cols := by
  intro cols
  induction cols with
  | nil => intro _; rfl
  | cons c cs ih =>
    intro h
    simp only [List.map_cons, List.zipWith_cons_cons]
    rw [list_set_getD d c k (h c (by simp)), ih fun c hc => h c (by simp [hc])]

theorem emplaceCols_length (args : List α) :
    ∀ (i : Nat) (cs : List (List α)),
      (emplaceCols args i cs).length = cs.length := by
  intro i cs
  induction cs generalizing i with
  | nil => rfl
  | cons c cs ih => simp [emplaceCols, ih]

theorem emplaceCols_getD (args : List α) :
    ∀ (cs : List (List α)) (i j : Nat), j < cs.length →
      (emplaceCols args i cs).getD j [] =
        cs.getD j [] ++ [args.getD (i + j) default] := by
  intro cs
  induction cs with
  | nil => intro i j h; simp at h
  | cons c cs ih =>
    intro i j h
    cases j with
    | zero => simp [emplaceCols]
    | succ j =>
      have harith : i + 1 + j = i + (j + 1) := by omega
      simpa [emplaceCols, harith] using ih (i + 1) j (by simpa using h)

theorem emplaceCols_mem_length (args : List α) (m : Nat) :
    ∀ (cs : List (List α)) (i : Nat), (∀ c ∈ cs, c.length = m) →
      ∀ c₁ ∈ emplaceCols args i cs, c₁.length = m + 1 := by
  intro cs
  induction cs with
  | nil => intro i _ c₁ h₁; simp [emplaceCols] at h₁
  | cons c cs ih =>
    intro i h c₁ h₁
    simp only [emplaceCols, List.mem_cons] at h₁
    rcases h₁ with h₁ | h₁
    · subst h₁; simp [h c (by simp)]
    · exact ih (i + 1) (fun c hc => h c (by simp [hc])) c₁ h₁

theorem fillCols_length (vals : List α) (count : Nat) :
    ∀ (cs : List (List α)) (i : Nat),
      (fillCols vals count i cs).length = cs.length := by
  intro cs
  induction cs with
  | nil => intro i; rfl
  | cons c cs ih => intro i; simp [fillCols, ih]

theorem fillCols_getD (vals : List α) (count : Nat) :
    ∀ (cs : List (List α)) (i j : Nat), j < cs.length →
      (fillCols vals count i cs).getD j [] =
        cs.getD j [] ++ List.replicate count (vals.getD (i + j) default) := by
  intro cs
  induction cs with
  | nil => intro i j h; simp at h
  | cons c cs ih =>
    intro i j h
    cases j with
    | zero => simp [fillCols]
    | succ j =>
      have harith : i + 1 + j = i + (j + 1) := by omega
      simpa [fillCols, harith] using ih (i + 1) j (by simpa using h)

theorem fillCols_mem_length (vals : List α) (count m : Nat) :
    ∀ (cs : List (List α)) (i : Nat), (∀ c ∈ cs, c.length = m) →
      ∀ c₁ ∈ fillCols vals count i cs, c₁.length = m + count := by
  intro cs
  induction cs with
  | nil => intro i _ c₁ h₁; simp [fillCols] at h₁
  | cons c cs ih =>
    intro i h c₁ h₁
    simp only [fillCols, List.mem_cons] at h₁
    rcases h₁ with h₁ | h₁
    · subst h₁; simp [h c (by simp)]
    · exact ih (i + 1) (fun c hc => h c (by simp [hc])) c₁ h₁

theorem emplaceEvents_map_fst :
    ∀ (m i : Nat) (as : List α),
      (emplaceEvents m i as).map Prod.fst = List.range' i m := by
  intro m
  induction m with
  | zero => intro i as; cases as <;> rfl
  | succ m ih =>
    intro i as
    cases as with
    | nil => simpa [emplaceEvents, List.range'] using ih (i + 1) []
    | cons a as => simpa [emplaceEvents, List.range'] using ih (i + 1) as

theorem reserve_spec (fds : List FieldTy) (v : vector α) (c : Int) :
    (vector.reserve fds v c).capacity = max v.capacity c ∧
      (vector.reserve fds v c).size = v.size ∧
      (vector.reserve fds v c).cols = v.cols := by
  unfold vector.reserve
  by_cases h : c ≤ v.capacity <;> simp [h] <;> omega

theorem emplace_spec (fds : List FieldTy) (v : vector α) (args : List α)
    (h : Inv fds v) :
    Inv fds (vector.emplace_back fds v args) ∧
      (vector.emplace_back fds v args).size = v.size + 1 ∧
      (v.size = v.capacity →
        (vector.emplace_back fds v args).capacity = max 1 (2 * v.capacity)) ∧
      (v.size ≠ v.capacity →
        (vector.emplace_back fds v args).capacity = v.capacity) ∧
      (∀ c ∈ (vector.emplace_back fds v args).cols,
        c.length = v.size.toNat + 1) := by
  obtain ⟨h0, h1, h2, h3⟩ := h
  obtain ⟨w, hw_eq, hws, hwcols, hwcap⟩ :
      ∃ w : vector α, vector.emplace_back fds v args = emplacePost w args ∧
        w.size = v.size ∧ w.cols = v.cols ∧
        w.capacity = (if v.size = v.capacity
          then max v.capacity (if v.size = 0 then 1 else v.capacity * 2)
          else v.capacity) := by
    by_cases hc : v.size = v.capacity
    · obtain ⟨hrc, hrs, hrcols⟩ :=
        reserve_spec fds v (if v.size = 0 then 1 else v.capacity * 2)
      refine ⟨_, ?_, hrs, hrcols, ?_⟩
      · unfold vector.emplace_back
        rw [if_pos hc]
      · rw [if_pos hc, hrc]
    · refine ⟨v, ?_, rfl, rfl, ?_⟩
      · unfold vector.emplace_back
        rw [if_neg hc]
      · rw [if_neg hc]
  rw [hw_eq]
  have hps : (emplacePost w args).size = v.size + 1 := by
    simp [emplacePost, hws]
  have hpc : (emplacePost w args).capacity = w.capacity := rfl
  have hpcols : (emplacePost w args).cols = emplaceCols args 0 w.cols := rfl
  have hlen : ∀ c ∈ emplaceCols args 0 w.cols, c.length = v.size.toNat + 1 :=
    emplaceCols_mem_length args v.size.toNat w.cols 0
      (by rw [hwcols]; exact h3)
  refine ⟨⟨?_, ?_, ?_, ?_⟩, hps, ?_, ?_, ?_⟩
  · rw [hps]; omega
  · rw [hps, hpc]
    split_ifs at hwcap <;> omega
  · rw [hpcols, emplaceCols_length, hwcols]
    exact h2
  · intro c hc
    rw [hpcols] at hc
    rw [hps]
    have := hlen c hc
    omega
  · intro hc
    rw [hpc, hwcap, if_pos hc]
    split_ifs with hz <;> omega
  · intro hc
    rw [hpc, hwcap, if_neg hc]
  · intro c hc
    exact hlen c (by rwa [hpcols] at hc)

theorem step_spec (fds : List FieldTy) (v : vector α) (op : Op α)
    (h : Inv fds v) (hp : preOp v op = true) :
    Inv fds (stepOp fds v op) ∧
      (stepOp fds v op).size = impliedSize v.size op := by
  cases op with
  | push val =>
    obtain ⟨hinv, hs, _⟩ := emplace_spec fds v val h
    exact ⟨hinv, hs⟩
  | pop =>
    have hpos : 0 < v.size := by simpa [preOp] using hp
    obtain ⟨h0, h1, h2, h3⟩ := h
    refine ⟨⟨by simp [stepOp, vector.pop_back]; omega,
      by simp [stepOp, vector.pop_back]; omega, ?_, ?_⟩, rfl⟩
    · simpa [stepOp, vector.pop_back] using h2
    · intro c hc
      simp only [stepOp, vector.pop_back, List.mem_map] at hc
      obtain ⟨c0, hc0, rfl⟩ := hc
      have := h3 c0 hc0
      simp only [stepOp, vector.pop_back, List.length_take, this]
      omega
  | reserveOp n =>
    obtain ⟨hrc, hrs, hrcols⟩ := reserve_spec fds v n
    obtain ⟨h0, h1, h2, h3⟩ := h
    refine ⟨⟨by simp only [stepOp, hrs]; omega,
      by simp only [stepOp, hrs, hrc]; omega, ?_, ?_⟩, hrs⟩
    · simpa [stepOp, hrcols] using h2
    · intro c hc
      simp only [stepOp, hrcols] at hc
      simpa [stepOp, hrs] using h3 c hc
  | resizeOp n =>
    have hn0 : (0 : Int) ≤ n := by simpa [preOp] using hp
    obtain ⟨h0, h1, h2, h3⟩ := h
    by_cases hle : n ≤ v.size
    · refine ⟨⟨by simpa [stepOp, vector.resize, hle] using hn0,
        by simp [stepOp, vector.resize, hle]; omega, ?_, ?_⟩,
        by simp [stepOp, vector.resize, hle, impliedSize]⟩
      · simpa [stepOp, vector.resize, hle] using h2
      · intro c hc
        simp only [stepOp, vector.resize, if_pos hle, List.mem_map] at hc
        obtain ⟨c0, hc0, rfl⟩ := hc
        have := h3 c0 hc0
        simp only [stepOp, vector.resize, if_pos hle, List.length_take, this]
        omega
    · obtain ⟨hrc, hrs, hrcols⟩ := reserve_spec fds v n
      have hfill := fillCols_mem_length ([] : List α) ((n - v.size).toNat)
        v.size.toNat v.cols 0 h3
      refine ⟨⟨by simpa [stepOp, vector.resize, hle] using hn0,
        by simp [stepOp, vector.resize, hle, hrc], ?_, ?_⟩,
        by simp [stepOp, vector.resize, hle, impliedSize]⟩
      · simpa [stepOp, vector.resize, hle, fillCols_length, hrcols] using h2
      · intro c hc
        simp only [stepOp, vector.resize, if_neg hle, hrcols] at hc
        have := hfill c hc
        simp only [stepOp, vector.resize, if_neg hle, this]
        omega
  | clearOp =>
    obtain ⟨h0, h1, h2, h3⟩ := h
    refine ⟨⟨by simp [stepOp, vector.clear],
      by simp [stepOp, vector.clear]; omega, ?_, ?_⟩,
      by simp [stepOp, vector.clear, impliedSize]⟩
    · simpa [stepOp, vector.clear] using h2
    · intro c hc
      simp only [stepOp, vector.clear, List.mem_map] at hc
      obtain ⟨c0, _, rfl⟩ := hc
      simp [stepOp, vector.clear]

theorem inv_mkEmpty (fds : List FieldTy) :
    Inv fds (vector.mkEmpty fds.length : vector α) := by
  refine ⟨by simp [vector.mkEmpty], by simp [vector.mkEmpty], ?_, ?_⟩
  · simp [vector.mkEmpty]
  · intro c hc
    simp only [vector.mkEmpty] at hc
    simp [List.eq_of_mem_replicate hc, vector.mkEmpty]

theorem emplaceIter_spec (fds : List FieldTy) (args : List α) :
    ∀ k : Nat, Inv fds (vector.emplaceIter fds args k) ∧
      (vector.emplaceIter fds args k).size = (k : Int) ∧
      (vector.emplaceIter fds args k).capacity =
        (if k = 0 then 0 else ((2 ^ Nat.clog 2 k : Nat) : Int)) := by
  intro k
  induction k with
  | zero => exact ⟨inv_mkEmpty fds, rfl, rfl⟩
  | succ k ih =>
    obtain ⟨hinv, hsz, hcap⟩ := ih
    obtain ⟨hinv2, hs2, hgrow, hngrow, _⟩ :=
      emplace_spec fds (vector.emplaceIter fds args k) args hinv
    refine ⟨hinv2, ?_, ?_⟩
    · simp only [vector.emplaceIter]
      rw [hs2, hsz]
      push_cast
      ring
    simp only [vector.emplaceIter]
    by_cases hk0 : k = 0
    · subst hk0
      have hc := hgrow (by rw [hsz, hcap]; simp)
      rw [hc, hcap]
      simp [Nat.clog_one_right]
    · have hk1 : 1 ≤ k := Nat.one_le_iff_ne_zero.mpr hk0
      have hcap2 : (vector.emplaceIter fds args k).capacity =
          ((2 ^ Nat.clog 2 k : Nat) : Int) := by rw [hcap]; simp [hk0]
      by_cases heq : (vector.emplaceIter fds args k).size =
          (vector.emplaceIter fds args k).capacity
      · have hkE : k = 2 ^ Nat.clog 2 k := by
          have h := heq
          rw [hsz, hcap2] at h
          exact_mod_cast h
        have hclog : Nat.clog 2 (k + 1) = Nat.clog 2 k + 1 := by
          have hpow : 2 ^ (Nat.clog 2 k + 1) = 2 * 2 ^ Nat.clog 2 k := by ring
          have hub : Nat.clog 2 (k + 1) ≤ Nat.clog 2 k + 1 := by
            rw [← Nat.le_pow_iff_clog_le (by norm_num)]
            omega
          have hlb : ¬ Nat.clog 2 (k + 1) ≤ Nat.clog 2 k := by
            rw [← Nat.le_pow_iff_clog_le (by norm_num)]
            omega
          omega
        rw [hgrow heq, hcap2, hclog]
        simp only [Nat.succ_ne_zero, if_false]
        push_cast
        have hpow : (2 : Int) ^ (Nat.clog 2 k + 1) = 2 * 2 ^ Nat.clog 2 k := by
          ring
        have h2E : (1 : Int) ≤ 2 ^ Nat.clog 2 k := one_le_pow₀ (by norm_num)
        omega
      · have hlt : (k : Int) < ((2 ^ Nat.clog 2 k : Nat) : Int) := by
          have hle := hinv.2.1
          rw [hsz, hcap2] at hle heq
          omega
        have hkE : k < 2 ^ Nat.clog 2 k := by exact_mod_cast hlt
        have hclog : Nat.clog 2 (k + 1) = Nat.clog 2 k := by
          have hub : Nat.clog 2 (k + 1) ≤ Nat.clog 2 k := by
            rw [← Nat.le_pow_iff_clog_le (by norm_num)]
            omega
          have hlb : Nat.clog 2 k ≤ Nat.clog 2 (k + 1) :=
            Nat.clog_mono_right 2 (by omega)
          omega
        rw [hngrow heq, hcap2, hclog]
        simp [hk0]

theorem emplaceEvents_getD :
    ∀ (m : Nat) (as : List α) (i j : Nat), j < m →
      (emplaceEvents m i as).getD j (0, CtorSrc.valueInit) =
        (i + j,
          if j < as.length then CtorSrc.arg (as.getD j default)
          else CtorSrc.valueInit) := by
  intro m
  induction m with
  | zero => intro as i j h; simp at h
  | succ m ih =>
    intro as i j h
    cases as with
    | nil =>
      cases j with
      | zero => simp [emplaceEvents]
      | succ j =>
        have harith : i + 1 + j = i + (j + 1) := by omega
        simpa [emplaceEvents, harith] using ih [] (i + 1) j (by omega)
    | cons a as =>
      cases j with
      | zero => simp [emplaceEvents]
      | succ j =>
        have harith : i + 1 + j = i + (j + 1) := by omega
        have := ih as (i + 1) j (by omega)
        simpa [emplaceEvents, harith, Nat.succ_lt_succ_iff] using this

/-! ### Claims -/

/-- Claim C1, counterexample.  For capacity `N = 1` and the ordered field
list (size 1, align 1), (size 1, align 1), (size 4, align 4), the engine
computes offsets `[0, 1, 5]` with total 9: field 2 sits at
`offset(field 1) + roundup(1*1, 4) = 1 + 4 = 5`.  The claim's prescription —
the offset of field 1 plus `N * size(field 1)`, rounded up to the next
multiple of `align(field 2)` — yields `roundup(1 + 1, 4) = 4` and total 8.
So the claim, as stated, is false of the code on this input. -/
theorem update_shift_spec_counterexample :
    layoutShifts 1 [⟨1, 0⟩, ⟨1, 0⟩, ⟨4, 2⟩] = [0, 1, 5, 9] ∧
      specLayoutShifts 1 [⟨1, 0⟩, ⟨1, 0⟩, ⟨4, 2⟩] = [0, 1, 4, 8] ∧
      layoutShifts 1 [⟨1, 0⟩, ⟨1, 0⟩, ⟨4, 2⟩] ≠
        specLayoutShifts 1 [⟨1, 0⟩, ⟨1, 0⟩, ⟨4, 2⟩] := by
  decide

/-- Claim C1, amended.  For every capacity and ordered field list the engine
places field 0 at offset 0 and places field `i` at the offset of field `i-1`
plus `N * size(field i-1)` rounded up — the increment by itself, not the
accumulated sum — to the next multiple of `align(field i)`; the total
allocation length is the offset just past the last field's segment (no final
rounding).  The second conjunct checks that `roundUpMult` is indeed
round-up-to-the-next-multiple: it is a multiple of the alignment, at least
the input, and less than the input plus the alignment. -/
theorem update_shift_layout (nb : Nat) (fds : List FieldTy) :
    layoutShifts nb fds = amendLayoutShifts nb fds ∧
      ∀ x k : Nat, x ≤ roundUpMult x (2 ^ k) ∧
        2 ^ k ∣ roundUpMult x (2 ^ k) ∧
        roundUpMult x (2 ^ k) < x + 2 ^ k := by
  constructor
  · cases fds with
    | nil => rfl
    | cons f fs =>
      simp [layoutShifts, amendLayoutShifts, update_shift_eq_amendShifts]
  · intro x k
    obtain ⟨hle, hlt⟩ := roundUpMult_le x k
    exact ⟨hle, ⟨_, rfl⟩, hlt⟩

/-- Claim C2 (code bug).  `shrink_to_fit` returns immediately when
`size() == capacity()`; on a container with `size < capacity` — here size 1,
capacity 2 — it calls `reallocate(size())`, a member declared nowhere in the
repository, so the claimed reallocation path does not even compile and has
no semantics (modelled as `none`). -/
theorem shrink_to_fit_unimplemented :
    vector.shrink_to_fit (⟨1, 2, [[5], [7]], 16⟩ : vector Int) = none ∧
      vector.shrink_to_fit (⟨2, 2, [[5, 6], [7, 8]], 16⟩ : vector Int) =
        some ⟨2, 2, [[5, 6], [7, 8]], 16⟩ := by
  decide

/-- Claim C3, counterexample.  On a field view of size 1, `at(-1)` does not
fail — `check_at` only tests `i >= size()` — although `-1` is outside
`[0, size)`; so "fails exactly when `i` is outside `[0, size)`" is false at
`i = -1`. -/
theorem at_negative_counterexample :
    ¬ ((fails (vector_span_at "soa::vector_span" ([5] : List Int) 1 (-1)) =
          true) ↔ ((-1 : Int) < 0 ∨ (1 : Int) ≤ -1)) := by
  decide

/-- Claim C3, amended.  For every container and field view, `at(i)` fails
exactly when `i ≥ size`, and then carries the type identity, the requested
index and the current size; every `i < size` — including negative `i` —
passes the check unrejected (the read is then unchecked). -/
theorem at_fails_iff_index_ge_size (tn : String) (col : List Int)
    (v : vector Int) (sz i : Int) :
    (fails (vector_span_at tn col sz i) = true ↔ sz ≤ i) ∧
      (sz ≤ i → vector_span_at tn col sz i = Except.error ⟨tn, i, sz⟩) ∧
      (fails (vector.at_checked tn v i) = true ↔ v.size ≤ i) ∧
      (v.size ≤ i → vector.at_checked tn v i = Except.error ⟨tn, i, v.size⟩) := by
  unfold vector_span_at vector.at_checked check_at
  by_cases h : sz ≤ i <;> by_cases h2 : v.size ≤ i <;>
    simp [h, h2, fails, Except.map]

/-- Witness for the amended claim C3 at concrete inputs. -/
theorem at_fails_iff_index_ge_size_witness :
    vector_span_at "soa::vector_span" ([5] : List Int) 1 2 =
        Except.error ⟨"soa::vector_span", 2, 1⟩ ∧
      vector.at_checked "soa::vector" (⟨1, 1, [[5]], 8⟩ : vector Int) 3 =
        Except.error ⟨"soa::vector", 3, 1⟩ :=
  ⟨(at_fails_iff_index_ge_size "soa::vector_span" [5]
      ⟨1, 1, [[5]], 8⟩ 1 2).2.1 (by decide),
   (at_fails_iff_index_ge_size "soa::vector" [5]
      ⟨1, 1, [[5]], 8⟩ 1 3).2.2.2 (by decide)⟩

/-- Claim C4.  `push_back` forwards to `emplace_back`; the capacity grows to
`max(1, 2*capacity)` exactly when `size == capacity` before the insertion
and is untouched otherwise; the new element's fields are constructed at
index `size` (every column's length becomes `size + 1`) in field declaration
order (the construction-event trace lists the field indices `0, 1, ...` in
order); `size` is incremented by one; and from a default-constructed
container `k` successive `emplace_back` calls leave size `k` and capacity
`2 ^ ⌈log2 k⌉` — the sequence 1, 2, 4, 8, ... -/
theorem emplace_back_growth (fds : List FieldTy) (v : vector Int)
    (args : List Int) (h : Inv fds v) :
    vector.push_back fds v args = vector.emplace_back fds v args ∧
      (v.size = v.capacity →
        (vector.emplace_back fds v args).capacity = max 1 (2 * v.capacity)) ∧
      (v.size ≠ v.capacity →
        (vector.emplace_back fds v args).capacity = v.capacity) ∧
      (vector.emplace_back fds v args).size = v.size + 1 ∧
      (∀ c ∈ (vector.emplace_back fds v args).cols,
        c.length = v.size.toNat + 1) ∧
      (emplaceEvents fds.length 0 args).map Prod.fst =
        List.range fds.length ∧
      ∀ k : Nat, (vector.emplaceIter fds args k).size = (k : Int) ∧
        (vector.emplaceIter fds args k).capacity =
          (if k = 0 then 0 else ((2 ^ Nat.clog 2 k : Nat) : Int)) := by
  obtain ⟨hinv2, hs2, hgrow, hngrow, hlen⟩ := emplace_spec fds v args h
  refine ⟨rfl, hgrow, hngrow, hs2, hlen, ?_, ?_⟩
  · rw [emplaceEvents_map_fst, ← List.range_eq_range']
  · intro k
    exact ⟨(emplaceIter_spec fds args k).2.1, (emplaceIter_spec fds args k).2.2⟩

/-- Witness for claim C4 at a full container (size 2 = capacity 2) and at
the fifth insertion from empty. -/
theorem emplace_back_growth_witness :
    (vector.emplace_back fds0 (⟨2, 2, [[1, 2], [3, 4]], 12⟩ : vector Int)
        [7, 1]).capacity =
      max 1 (2 * (⟨2, 2, [[1, 2], [3, 4]], 12⟩ : vector Int).capacity) ∧
      (vector.emplaceIter fds0 ([7, 1] : List Int) 5).capacity =
        (if (5 : Nat) = 0 then 0 else ((2 ^ Nat.clog 2 5 : Nat) : Int)) := by
  have h := emplace_back_growth fds0 ⟨2, 2, [[1, 2], [3, 4]], 12⟩ [7, 1]
    (by unfold Inv; decide)
  exact ⟨h.2.1 (by decide), (h.2.2.2.2.2.2 5).2⟩

/-- Claim C5.  For `0 ≤ n ≤ size`, both `resize` overloads destroy elements
`[n, size)` field-by-field (each column is truncated to its first `n`
values), set `size = n` and leave the capacity unchanged; for `n > size`
they first ensure `capacity ≥ n` via `reserve`, then extend every column by
`n - size` value-initialized elements (`resize(n)`) or copies of the fill
value's corresponding field (`resize(n, value)`), then set `size = n`. -/
theorem resize_claim (fds : List FieldTy) (v : vector Int) (n : Int)
    (val : List Int) (h : Inv fds v) (hn : 0 ≤ n) :
    (n ≤ v.size →
      (vector.resize fds v n).size = n ∧
      (vector.resize fds v n).capacity = v.capacity ∧
      (vector.resize fds v n).cols = v.cols.map (fun c => c.take n.toNat) ∧
      (vector.resize_fill fds v n val).size = n ∧
      (vector.resize_fill fds v n val).capacity = v.capacity ∧
      (vector.resize_fill fds v n val).cols =
        v.cols.map (fun c => c.take n.toNat)) ∧
    (v.size < n →
      n ≤ (vector.resize fds v n).capacity ∧
      (vector.resize fds v n).size = n ∧
      (∀ j : Nat, j < fds.length →
        (vector.resize fds v n).cols.getD j [] =
          v.cols.getD j [] ++
            List.replicate (n - v.size).toNat (default : Int)) ∧
      n ≤ (vector.resize_fill fds v n val).capacity ∧
      (vector.resize_fill fds v n val).size = n ∧
      (∀ j : Nat, j < fds.length →
        (vector.resize_fill fds v n val).cols.getD j [] =
          v.cols.getD j [] ++
            List.replicate (n - v.size).toNat
              (val.getD j (default : Int)))) := by
  obtain ⟨h0, h1, h2, h3⟩ := h
  obtain ⟨hrc, hrs, hrcols⟩ := reserve_spec fds v n
  constructor
  · intro hle
    refine ⟨?_, ?_, ?_, ?_, ?_, ?_⟩ <;>
      simp [vector.resize, vector.resize_fill, hle]
  · intro hlt
    have hle : ¬ n ≤ v.size := by omega
    refine ⟨?_, ?_, ?_, ?_, ?_, ?_⟩
    · simp only [vector.resize, if_neg hle, hrc]
      omega
    · simp [vector.resize, hle]
    · intro j hj
      have hjv : j < v.cols.length := by rw [h2]; exact hj
      simp only [vector.resize, if_neg hle, hrcols]
      rw [fillCols_getD ([] : List Int) ((n - v.size).toNat) v.cols 0 j hjv]
      simp [List.getD]
    · simp only [vector.resize_fill, if_neg hle, hrc]
      omega
    · simp [vector.resize_fill, hle]
    · intro j hj
      have hjv : j < v.cols.length := by rw [h2]; exact hj
      simp only [vector.resize_fill, if_neg hle, hrcols]
      rw [fillCols_getD val ((n - v.size).toNat) v.cols 0 j hjv]
      simp

/-- Witness for claim C5: shrinking a size-2, capacity-3 container to one
element keeps the capacity and truncates the columns. -/
theorem resize_claim_witness :
    (vector.resize fds0 (⟨2, 3, [[1, 2], [5, 6]], 16⟩ : vector Int) 1).size =
        1 ∧
      (vector.resize fds0 (⟨2, 3, [[1, 2], [5, 6]], 16⟩ : vector Int)
          1).capacity = (⟨2, 3, [[1, 2], [5, 6]], 16⟩ : vector Int).capacity ∧
      (vector.resize fds0 (⟨2, 3, [[1, 2], [5, 6]], 16⟩ : vector Int)
          1).cols =
        (⟨2, 3, [[1, 2], [5, 6]], 16⟩ : vector Int).cols.map
          (fun c => c.take (1 : Int).toNat) ∧
      (vector.resize_fill fds0 (⟨2, 3, [[1, 2], [5, 6]], 16⟩ : vector Int) 1
          [8, 9]).size = 1 ∧
      (vector.resize_fill fds0 (⟨2, 3, [[1, 2], [5, 6]], 16⟩ : vector Int) 1
          [8, 9]).capacity =
        (⟨2, 3, [[1, 2], [5, 6]], 16⟩ : vector Int).capacity ∧
      (vector.resize_fill fds0 (⟨2, 3, [[1, 2], [5, 6]], 16⟩ : vector Int) 1
          [8, 9]).cols =
        (⟨2, 3, [[1, 2], [5, 6]], 16⟩ : vector Int).cols.map
          (fun c => c.take (1 : Int).toNat) :=
  (resize_claim fds0 ⟨2, 3, [[1, 2], [5, 6]], 16⟩ 1 [8, 9]
    (by unfold Inv; decide) (by decide)).1 (by decide)

/-- Claim C6.  After move construction or move assignment the destination
holds the source's original size, capacity, element values (columns) and
byte count, and the source is left in the canonical empty state: size 0,
capacity 0, no allocation (`nb_bytes_ = 0`, no live values). -/
theorem move_leaves_canonical_empty (v w : vector Int) :
    ((vector.move_construct v).1.size = v.size ∧
      (vector.move_construct v).1.capacity = v.capacity ∧
      (vector.move_construct v).1.cols = v.cols ∧
      (vector.move_construct v).1.nbBytes = v.nbBytes ∧
      canonicalEmpty (vector.move_construct v).2) ∧
    ((vector.move_assign w v).1.size = v.size ∧
      (vector.move_assign w v).1.capacity = v.capacity ∧
      (vector.move_assign w v).1.cols = v.cols ∧
      (vector.move_assign w v).1.nbBytes = v.nbBytes ∧
      canonicalEmpty (vector.move_assign w v).2) := by
  have hz : canonicalEmpty (vector.to_zero v) := by
    refine ⟨rfl, rfl, rfl, ?_⟩
    intro c hc
    obtain ⟨c0, _, h⟩ := List.mem_map.mp hc
    exact h.symm
  exact ⟨⟨rfl, rfl, rfl, rfl, hz⟩, ⟨rfl, rfl, rfl, rfl, hz⟩⟩

/-- Claim C7.  Running any sequence of `push_back`/`pop_back`/`reserve`/
`resize`/`clear` from the default-constructed container, with every call
meeting its own precondition, maintains the container invariant — in
particular `0 ≤ size ≤ capacity` — and leaves `size()` equal to the number
of logical elements implied by the sequence. -/
theorem sequence_size_invariant (fds : List FieldTy) (ops : List (Op Int))
    (h : okRun fds (vector.mkEmpty fds.length) ops = true) :
    Inv fds (runOps fds (vector.mkEmpty fds.length) ops) ∧
      0 ≤ (runOps fds (vector.mkEmpty fds.length) ops).size ∧
      (runOps fds (vector.mkEmpty fds.length) ops).size ≤
        (runOps fds (vector.mkEmpty fds.length) ops).capacity ∧
      (runOps fds (vector.mkEmpty fds.length) ops).size = impliedRun 0 ops := by
  have main : ∀ (l : List (Op Int)) (v : vector Int), Inv fds v →
      okRun fds v l = true →
      Inv fds (runOps fds v l) ∧
        (runOps fds v l).size = impliedRun v.size l := by
    intro l
    induction l with
    | nil => intro v hv _; exact ⟨hv, rfl⟩
    | cons op l ih =>
      intro v hv hok
      rw [okRun, Bool.and_eq_true] at hok
      obtain ⟨hinv, hsz⟩ := step_spec fds v op hv hok.1
      obtain ⟨hinv2, hsz2⟩ := ih (stepOp fds v op) hinv hok.2
      refine ⟨hinv2, ?_⟩
      simp only [runOps, impliedRun]
      rw [hsz2, hsz]
  obtain ⟨hi, hs⟩ := main ops (vector.mkEmpty fds.length) (inv_mkEmpty fds) h
  exact ⟨hi, hi.1, hi.2.1, by rw [hs]; rfl⟩

/-- Witness for claim C7 on a concrete seven-operation sequence. -/
theorem sequence_size_invariant_witness :
    Inv fds0 (runOps fds0 (vector.mkEmpty fds0.length) ops0) ∧
      0 ≤ (runOps fds0 (vector.mkEmpty fds0.length) ops0).size ∧
      (runOps fds0 (vector.mkEmpty fds0.length) ops0).size ≤
        (runOps fds0 (vector.mkEmpty fds0.length) ops0).capacity ∧
      (runOps fds0 (vector.mkEmpty fds0.length) ops0).size =
        impliedRun 0 ops0 :=
  sequence_size_invariant fds0 ops0 (by decide)

/-- Claim C8.  Materializing a record from the proxy at a live index `i` and
assigning that value back through the proxy at `i` leaves the container —
every field value at `i` included — unchanged. -/
theorem proxy_round_trip (fds : List FieldTy) (v : vector Int) (i : Int)
    (h : Inv fds v) (h0 : 0 ≤ i) (hi : i < v.size) :
    vector.write_record v i (vector.read_record v i) = v := by
  obtain ⟨hs0, _, _, hcols⟩ := h
  have hlen : ∀ c ∈ v.cols, i.toNat < c.length := by
    intro c hc
    rw [hcols c hc]
    omega
  unfold vector.write_record vector.read_record
  rw [zipWith_set_read default i.toNat v.cols hlen]

/-- Witness for claim C8 at index 0 of a two-element container. -/
theorem proxy_round_trip_witness :
    vector.write_record (⟨2, 2, [[1, 2], [10, 20]], 12⟩ : vector Int) 0
        (vector.read_record (⟨2, 2, [[1, 2], [10, 20]], 12⟩ : vector Int) 0) =
      (⟨2, 2, [[1, 2], [10, 20]], 12⟩ : vector Int) :=
  proxy_round_trip fds0 ⟨2, 2, [[1, 2], [10, 20]], 12⟩ 0
    (by unfold Inv; decide) (by decide) (by decide)

/-- Claim C9.  `pop_back` performs no emptiness check: on a container of
size 0 it sets `size_` to `-1` — breaking `0 ≤ size` — and the slot index
handed to every field destructor is `-1`; the destructor index equals the
already-decremented size, i.e. the decrement happens before the
destruction. -/
theorem pop_back_on_empty (v : vector Int) (h : v.size = 0) :
    (vector.pop_back v).1.size = -1 ∧
      ¬ (0 ≤ (vector.pop_back v).1.size) ∧
      (vector.pop_back v).2 = (vector.pop_back v).1.size ∧
      (vector.pop_back v).2 = -1 := by
  have h1 : (vector.pop_back v).1.size = -1 := by
    simp [vector.pop_back, h]
  have h2 : (vector.pop_back v).2 = -1 := by
    simp [vector.pop_back, h]
  exact ⟨h1, by rw [h1]; decide, by rw [h2, h1], h2⟩

/-- Witness for claim C9 on the default-constructed two-field container. -/
theorem pop_back_on_empty_witness :
    (vector.pop_back (vector.mkEmpty 2 : vector Int)).1.size = -1 ∧
      ¬ (0 ≤ (vector.pop_back (vector.mkEmpty 2 : vector Int)).1.size) ∧
      (vector.pop_back (vector.mkEmpty 2 : vector Int)).2 =
        (vector.pop_back (vector.mkEmpty 2 : vector Int)).1.size ∧
      (vector.pop_back (vector.mkEmpty 2 : vector Int)).2 = -1 :=
  pop_back_on_empty (vector.mkEmpty 2) rfl

/-- Claim C10.  `emplace_back` with fewer arguments than the record has
fields constructs the first `k` fields of the new element (at index `size`)
from the forwarded arguments in declaration order and value-initializes each
remaining field: the new element's field `j` is `args[j]` for `j < k` and
the default value otherwise, and the construction-event trace records
`arg`/`valueInit` accordingly. -/
theorem emplace_back_fewer_args (fds : List FieldTy) (v : vector Int)
    (args : List Int) (h : Inv fds v) (hk : args.length < fds.length) :
    ∀ j : Nat, j < fds.length →
      (((vector.emplace_back fds v args).cols.getD j []).getD v.size.toNat
          (default : Int) =
        (if j < args.length then args.getD j (default : Int)
         else (default : Int))) ∧
      ((emplaceEvents fds.length 0 args).getD j (0, CtorSrc.valueInit) =
        (j, if j < args.length then CtorSrc.arg (args.getD j (default : Int))
            else CtorSrc.valueInit)) := by
  obtain ⟨h0, h1, h2, h3⟩ := h
  have hcols : (vector.emplace_back fds v args).cols =
      emplaceCols args 0 v.cols := by
    unfold vector.emplace_back
    by_cases hc : v.size = v.capacity
    · rw [if_pos hc]
      show emplaceCols args 0 (vector.reserve fds v _).cols = _
      rw [(reserve_spec fds v _).2.2]
    · rw [if_neg hc]
      rfl
  intro j hj
  have hjv : j < v.cols.length := by rw [h2]; exact hj
  have hclen : (v.cols.getD j []).length = v.size.toNat :=
    h3 _ (list_getD_mem v.cols j [] hjv)
  constructor
  · rw [hcols, emplaceCols_getD args v.cols 0 j hjv]
    simp only [Nat.zero_add]
    rw [← hclen, list_getD_append_length]
    by_cases hja : j < args.length
    · simp [hja]
    · rw [list_getD_of_le args j (default : Int) (by omega)]
      simp [hja]
  · rw [emplaceEvents_getD fds.length args 0 j hj]
    simp

/-- Witness for claim C10: emplacing one argument into a two-field record
value-initializes the second field. -/
theorem emplace_back_fewer_args_witness :
    (((vector.emplace_back fds0 (⟨1, 2, [[5], [9]], 12⟩ : vector Int)
          [7]).cols.getD 1 []).getD
        (⟨1, 2, [[5], [9]], 12⟩ : vector Int).size.toNat (default : Int) =
      (if 1 < ([7] : List Int).length then ([7] : List Int).getD 1 (default : Int)
       else (default : Int))) ∧
      ((emplaceEvents fds0.length 0 ([7] : List Int)).getD 1
          (0, CtorSrc.valueInit) =
        (1, if 1 < ([7] : List Int).length
            then CtorSrc.arg (([7] : List Int).getD 1 (default : Int))
            else CtorSrc.valueInit)) :=
  emplace_back_fewer_args fds0 ⟨1, 2, [[5], [9]], 12⟩ [7]
    (by unfold Inv; decide) (by decide) 1 (by decide)

end Soa
